import Mathlib

/-!
Shallow embedding of `src/main.rs` (a Rust text analyzer) and proofs about it.

Modelling conventions:
* A Rust `&str` / `String` is a `List Char` of its Unicode scalar values.
* `String::len` in Rust is the UTF-8 byte length; it is modelled by `utf8_len`
  (sum of `Char.utf8Size`).  Rust's `Ord` on `String`/`&str` compares UTF-8
  bytes lexicographically, which coincides with lexicographic order on the
  code points, modelled by `word_lt`.
* `std::collections::HashMap` is modelled as an association list in first
  insertion order; since `HashMap` iteration order is unspecified, theorems
  about iteration-order independence quantify over all permutations of the
  entry list.
* `std::collections::BinaryHeap<Reverse<_>>` with the push / pop-on-overflow
  pattern of the source is modelled at the multiset level by a list kept
  sorted ascending (`insert_sorted` / `heap_push`): `pop` on the
  `Reverse`-heap removes a minimal element, i.e. the head of the ascending
  list.  All elements inserted by the source are pairwise distinct (their
  word components are distinct keys of the map), so the minimum is unique
  and the retained multiset is exactly determined.
* `Instant` timing (the `time_ms` field) is wall-clock measurement and is
  not modelled; no claim concerns it.
-/

/-- A Rust string as the list of its Unicode scalar values. -/
abbrev Word := List Char

/-- Model of Rust `char::is_alphabetic` (the Unicode `Alphabetic` property),
exact on the Latin-1 range U+0000..U+00FF (ASCII letters, U+00AA, U+00B5,
U+00BA, U+00C0-U+00D6, U+00D8-U+00F6, U+00F8-U+00FF).  Code points above
U+00FF are classified as non-alphabetic in this model; every concrete input
used below lies in the Latin-1 range, where the model agrees with Rust. -/
def is_alphabetic (c : Char) : Bool :=
  decide ((0x41 ≤ c.toNat ∧ c.toNat ≤ 0x5A) ∨ (0x61 ≤ c.toNat ∧ c.toNat ≤ 0x7A) ∨
    c.toNat = 0xAA ∨ c.toNat = 0xB5 ∨ c.toNat = 0xBA ∨
    (0xC0 ≤ c.toNat ∧ c.toNat ≤ 0xD6) ∨ (0xD8 ≤ c.toNat ∧ c.toNat ≤ 0xF6) ∨
    (0xF8 ≤ c.toNat ∧ c.toNat ≤ 0xFF))

/-- Model of Rust `char::is_whitespace`: the full Unicode `White_Space` set. -/
def is_whitespace (c : Char) : Bool :=
  decide ((0x09 ≤ c.toNat ∧ c.toNat ≤ 0x0D) ∨ c.toNat = 0x20 ∨ c.toNat = 0x85 ∨
    c.toNat = 0xA0 ∨ c.toNat = 0x1680 ∨ (0x2000 ≤ c.toNat ∧ c.toNat ≤ 0x200A) ∨
    c.toNat = 0x2028 ∨ c.toNat = 0x2029 ∨ c.toNat = 0x202F ∨ c.toNat = 0x205F ∨
    c.toNat = 0x3000)

/-- Model of Rust `char::is_ascii_uppercase`. -/
def is_ascii_uppercase (c : Char) : Bool :=
  decide (0x41 ≤ c.toNat ∧ c.toNat ≤ 0x5A)

/-- Model of Rust `char::to_ascii_lowercase`: ASCII uppercase letters are
shifted by 32, every other character (non-ASCII letters included) is
returned unchanged. -/
def to_ascii_lowercase (c : Char) : Char :=
  if is_ascii_uppercase c then Char.ofNat (c.toNat + 0x20) else c

/-- Model of Rust `str::len` on the string `w`: its UTF-8 byte length. -/
def utf8_len (w : Word) : Nat :=
  (w.map Char.utf8Size).sum

/-- Auxiliary for `split_whitespace`: `acc` holds the current token reversed. -/
def split_ws_go : List Char → List Char → List Word
  | [], acc => if acc.isEmpty then [] else [acc.reverse]
  | c :: cs, acc =>
    if is_whitespace c then
      if acc.isEmpty then split_ws_go cs [] else acc.reverse :: split_ws_go cs []
    else split_ws_go cs (c :: acc)

/-- Model of Rust `str::split_whitespace`: the maximal runs of
non-whitespace characters, in order. -/
def split_whitespace (t : List Char) : List Word :=
  split_ws_go t []

/-- Strip one leading carriage return.  Applied to the *reversed*
accumulated line in `lines_go`, it removes the line's trailing `\r`,
as Rust `str::lines` does for `\r\n` line endings. -/
def strip_cr : List Char → List Char
  | [] => []
  | c :: rest => if c = '\r' then rest else c :: rest

/-- Auxiliary for `str_lines`: `acc` holds the current line reversed. -/
def lines_go : List Char → List Char → List Word
  | [], acc => if acc.isEmpty then [] else [acc.reverse]
  | c :: cs, acc =>
    if c = '\n' then (strip_cr acc).reverse :: lines_go cs []
    else lines_go cs (c :: acc)

/-- Model of Rust `str::lines`: split at `\n`, stripping a trailing `\r`
from each terminated line; a final unterminated segment is kept as-is and
a trailing terminator produces no extra empty line. -/
def str_lines (t : List Char) : List Word :=
  lines_go t []

/-- The character-counting inner loop shared by both versions:
`for ch in ... { if ch.is_alphabetic() { char_count += 1 } }`. -/
def count_alpha (w : List Char) : Nat :=
  w.countP (fun c => is_alphabetic c)

/-- The normalization of one token in `analyze_text_fast`
(src/main.rs lines 113-116): keep the alphabetic characters, map each
through `to_ascii_lowercase`, in original order. -/
def normalize_word (w : Word) : Word :=
  (w.filter (fun c => is_alphabetic c)).map to_ascii_lowercase

/-- Model of `*word_freq.entry(clean_word).or_insert(0) += 1` on the
association-list model of the `HashMap`: increment the existing entry, or
append a new entry with count 1. -/
def bump (m : List (Word × Nat)) (w : Word) : List (Word × Nat) :=
  match m with
  | [] => [(w, 1)]
  | (w', c) :: rest => if w' = w then (w', c + 1) :: rest else (w', c) :: bump rest w

/-- Count associated to a word in the map model (0 when absent). -/
def get_count (m : List (Word × Nat)) (w : Word) : Nat :=
  match m with
  | [] => 0
  | (w', c) :: rest => if w' = w then c else get_count rest w

/-- The body of the fused loop of `analyze_text_fast` (src/main.rs lines
104-127): add the token's alphabetic-character count to `char_count`, then
insert the normalized token into `word_freq` unless it is empty.  (The
source also tracks `max_len` in this loop; it is dead — never read into
the result — and is omitted.) -/
def freq_step (st : List (Word × Nat) × Nat) (w : Word) : List (Word × Nat) × Nat :=
  let cc := st.2 + count_alpha w
  let clean_word := normalize_word w
  if clean_word.isEmpty then (st.1, cc) else (bump st.1 clean_word, cc)

/-- The fused single pass of `analyze_text_fast` (src/main.rs lines
104-127): one fold of `freq_step` over the whitespace-split tokens. -/
def word_freq_char_count (t : List Char) : List (Word × Nat) × Nat :=
  (split_whitespace t).foldl freq_step ([], 0)

/-- The frequency map of a text, in first-insertion order. -/
def word_freq (t : List Char) : List (Word × Nat) :=
  (word_freq_char_count t).1

/-- The normalized non-empty words of a text, with multiplicity. -/
def norm_words (t : List Char) : List Word :=
  ((split_whitespace t).map normalize_word).filter (fun w => !w.isEmpty)

/-- Lexicographic strict order on words by code point.  This coincides with
Rust's `Ord` on `String`/`&str` (bytewise comparison of the UTF-8
encodings), because UTF-8 preserves code-point order. -/
def word_lt : Word → Word → Bool
  | [], [] => false
  | [], _ :: _ => true
  | _ :: _, [] => false
  | a :: as, b :: bs =>
    if a.toNat < b.toNat then true
    else if b.toNat < a.toNat then false
    else word_lt as bs

/-- Strict order on `(usize, String)` pairs as compared by the heaps of the
source: lexicographic on the pair, mirroring Rust's derived `Ord` for
tuples. -/
def pair_lt (p q : Nat × Word) : Bool :=
  if p.1 < q.1 then true
  else if q.1 < p.1 then false
  else word_lt p.2 q.2

/-- Insert into an ascending-sorted list, before the first element that is
greater. -/
def insert_sorted (lt : α → α → Bool) (x : α) : List α → List α
  | [] => [x]
  | y :: ys => if lt x y then x :: y :: ys else y :: insert_sorted lt x ys

/-- One step of the source's bounded-heap pattern
(`heap.push(x); if heap.len() > K { heap.pop(); }`): insert, then drop the
minimum (the head of the ascending list) if the capacity is exceeded. -/
def heap_push (K : Nat) (lt : α → α → Bool) (h : List α) (x : α) : List α :=
  let h' := insert_sorted lt x h
  if K < h'.length then h'.tail else h'

/-- The retained contents (ascending) after feeding every element of `l`
through the bounded heap of capacity `K`. -/
def bounded_top_k (K : Nat) (lt : α → α → Bool) (l : List α) : List α :=
  l.foldl (heap_push K lt) []

/-- The top-words selection of `analyze_text_fast` (src/main.rs lines
131-146) run on the entry sequence `entries` (the map iterated in some
order): push each `(count, word)` through a bounded min-heap of capacity
10, then collect as `(word, count)` and sort descending by count
(`sort_by(|a, b| b.1.cmp(&a.1))`).  Rust's `sort_by` is a stable sort;
any stable sort with the same comparator produces the same sequence, so it
is modelled by stable insertion sort. -/
def top_words_sel (entries : List (Word × Nat)) : List (Word × Nat) :=
  ((bounded_top_k 10 pair_lt (entries.map (fun p => (p.2, p.1)))).map
    (fun p => (p.2, p.1))).insertionSort (fun a b => b.2 ≤ a.2)

/-- The longest-words selection of `analyze_text_fast` (src/main.rs lines
148-162) run on the entry sequence `entries`: push each
`(word.len(), word)` — byte length — through a bounded min-heap of
capacity 5, then collect the words and sort descending by byte length
(`sort_by(|a, b| b.len().cmp(&a.len()))`, again a stable sort). -/
def longest_words_sel (entries : List (Word × Nat)) : List Word :=
  ((bounded_top_k 5 pair_lt (entries.map (fun p => (utf8_len p.1, p.1)))).map
    (fun p => p.2)).insertionSort (fun a b => utf8_len b ≤ utf8_len a)

/-- The result record of both analyzers (src/main.rs lines 177-184), minus
the unmodelled wall-clock `time_ms` field. -/
structure TextStats where
  word_count : Nat
  char_count : Nat
  top_words : List (Word × Nat)
  longest_words : List Word
deriving DecidableEq

/-- Variant of `analyze_text_fast` with the `HashMap` iteration order made explicit:
`it` is the entry sequence the two selection loops traverse.  The real
function is `analyze_text_fast` below, which iterates the map model in
insertion order; theorems quantify `it` over all permutations of
`word_freq t` to cover `HashMap`'s unspecified iteration order. -/
def analyze_text_fast_iter (t : List Char) (it : List (Word × Nat)) : TextStats :=
  let fc := word_freq_char_count t
  { word_count := fc.1.length
    char_count := fc.2
    top_words := top_words_sel it
    longest_words := longest_words_sel it }

/-- Model of `analyze_text_fast` (src/main.rs lines 95-171). -/
def analyze_text_fast (t : List Char) : TextStats :=
  analyze_text_fast_iter t (word_freq t)

/-- Model of the character-counting pass of `analyze_text_slow`
(src/main.rs lines 53-60): iterate the lines of the text and count
alphabetic characters.  The rest of `analyze_text_slow` is not needed by
any claim. -/
def analyze_text_slow_char_count (t : List Char) : Nat :=
  ((str_lines t).map count_alpha).sum

/-- Modelled from the spec: the claim "each converted to lowercase" refers
to Unicode lowercasing (Rust `char::to_lowercase`); modelled here by the
Unicode simple lowercase mapping restricted to the Latin-1 range
(A-Z and À-Þ except × shift by 32; everything else is unchanged). -/
def spec_to_lowercase (c : Char) : Char :=
  if (0x41 ≤ c.toNat ∧ c.toNat ≤ 0x5A) ∨
      ((0xC0 ≤ c.toNat ∧ c.toNat ≤ 0xDE) ∧ c.toNat ≠ 0xD7) then
    Char.ofNat (c.toNat + 0x20)
  else c

/-! ### Character-level facts -/

theorem char_toNat_ofNat {n : Nat} (h : n < 0xD800) : (Char.ofNat n).toNat = n := by
  have hv : Nat.isValidChar n := Or.inl h
  simp [Char.ofNat, hv, Char.toNat, Char.ofNatAux, UInt32.toNat, BitVec.toNat_ofNatLt]

theorem char_toNat_inj {a b : Char} (h : a.toNat = b.toNat) : a = b := by
  have h2 := congrArg Char.ofNat h
  rwa [Char.ofNat_toNat, Char.ofNat_toNat] at h2

theorem not_alphabetic_of_whitespace {c : Char} (h : is_whitespace c = true) :
    is_alphabetic c = false := by
  simp only [is_whitespace, decide_eq_true_eq] at h
  simp only [is_alphabetic, decide_eq_false_iff_not]
  omega

theorem to_ascii_lowercase_of_upper {c : Char} (h : is_ascii_uppercase c = true) :
    (to_ascii_lowercase c).toNat = c.toNat + 0x20 := by
  have h' : 0x41 ≤ c.toNat ∧ c.toNat ≤ 0x5A := by
    simpa [is_ascii_uppercase] using h
  have hlt : c.toNat + 0x20 < 0xD800 := by omega
  simp [to_ascii_lowercase, h, char_toNat_ofNat hlt]

theorem to_ascii_lowercase_of_not_upper {c : Char} (h : is_ascii_uppercase c = false) :
    to_ascii_lowercase c = c := by
  simp [to_ascii_lowercase, h]

/-- The map `to_ascii_lowercase` keeps alphabetic characters alphabetic and its
output is never an ASCII uppercase letter. -/
theorem to_ascii_lowercase_char_props {c : Char} (h : is_alphabetic c = true) :
    is_alphabetic (to_ascii_lowercase c) = true ∧
    is_ascii_uppercase (to_ascii_lowercase c) = false := by
  by_cases hu : is_ascii_uppercase c = true
  · have h1 := to_ascii_lowercase_of_upper hu
    have h2 : 0x41 ≤ c.toNat ∧ c.toNat ≤ 0x5A := by
      simpa [is_ascii_uppercase] using hu
    constructor
    · simp only [is_alphabetic, decide_eq_true_eq]
      omega
    · simp only [is_ascii_uppercase, decide_eq_false_iff_not]
      omega
  · have hb : is_ascii_uppercase c = false := by
      simpa using hu
    rw [to_ascii_lowercase_of_not_upper hb]
    exact ⟨h, hb⟩

/-- Every character of a normalized word is alphabetic and not an ASCII
uppercase letter. -/
theorem mem_normalize_word {c : Char} {w : Word} (h : c ∈ normalize_word w) :
    is_alphabetic c = true ∧ is_ascii_uppercase c = false := by
  simp only [normalize_word, List.mem_map, List.mem_filter] at h
  obtain ⟨d, ⟨_, hd⟩, rfl⟩ := h
  exact to_ascii_lowercase_char_props hd

/-! ### Alphabetic-character counting across the two tokenizations -/

theorem count_alpha_nil : count_alpha [] = 0 := rfl

theorem count_alpha_cons (c : Char) (l : List Char) :
    count_alpha (c :: l) = count_alpha l + (if is_alphabetic c = true then 1 else 0) :=
  List.countP_cons _ c l

theorem count_alpha_reverse (l : List Char) : count_alpha l.reverse = count_alpha l :=
  List.countP_reverse _ l

theorem sum_count_alpha_split_ws_go (t acc : List Char) :
    ((split_ws_go t acc).map count_alpha).sum = count_alpha acc + count_alpha t := by
  induction t generalizing acc with
  | nil =>
    by_cases h : acc.isEmpty
    · rw [List.isEmpty_iff] at h
      subst h
      simp [split_ws_go, count_alpha]
    · simp [split_ws_go, h, count_alpha_reverse, count_alpha]
  | cons c cs ih =>
    by_cases hws : is_whitespace c
    · have halpha : is_alphabetic c = false := not_alphabetic_of_whitespace hws
      by_cases h : acc.isEmpty
      · rw [List.isEmpty_iff] at h
        subst h
        simp [split_ws_go, hws, ih, count_alpha_cons, halpha, count_alpha]
      · simp [split_ws_go, hws, h, ih, count_alpha_cons, halpha, count_alpha_reverse,
          count_alpha_nil]
    · simp only [split_ws_go, hws, if_neg, Bool.false_eq_true, ite_false]
      rw [ih (c :: acc), count_alpha_cons, count_alpha_cons]
      omega

theorem count_alpha_split_whitespace (t : List Char) :
    ((split_whitespace t).map count_alpha).sum = count_alpha t := by
  have h := sum_count_alpha_split_ws_go t []
  simpa [split_whitespace, count_alpha] using h

theorem count_alpha_strip_cr (l : List Char) : count_alpha (strip_cr l) = count_alpha l := by
  cases l with
  | nil => rfl
  | cons c rest =>
    by_cases h : c = '\r'
    · subst h
      have : is_alphabetic '\r' = false := by decide
      simp [strip_cr, count_alpha_cons, this]
    · simp [strip_cr, h]

theorem sum_count_alpha_lines_go (t acc : List Char) :
    ((lines_go t acc).map count_alpha).sum = count_alpha acc + count_alpha t := by
  induction t generalizing acc with
  | nil =>
    by_cases h : acc.isEmpty
    · rw [List.isEmpty_iff] at h
      subst h
      simp [lines_go, count_alpha]
    · simp [lines_go, h, count_alpha_reverse, count_alpha]
  | cons c cs ih =>
    by_cases hnl : c = '\n'
    · subst hnl
      have halpha : is_alphabetic '\n' = false := by decide
      simp [lines_go, ih, count_alpha_cons, halpha, count_alpha_reverse, count_alpha_strip_cr,
        count_alpha_nil]
    · simp only [lines_go, hnl, ite_false]
      rw [ih (c :: acc), count_alpha_cons, count_alpha_cons]
      omega

theorem count_alpha_str_lines (t : List Char) :
    ((str_lines t).map count_alpha).sum = count_alpha t := by
  have h := sum_count_alpha_lines_go t []
  simpa [str_lines, count_alpha] using h

/-! ### Splitting the fused single pass -/

theorem freq_step_empty {st : List (Word × Nat) × Nat} {w : Word}
    (h : (normalize_word w).isEmpty = true) :
    freq_step st w = (st.1, st.2 + count_alpha w) := by
  simp [freq_step, h]

theorem freq_step_nonempty {st : List (Word × Nat) × Nat} {w : Word}
    (h : (normalize_word w).isEmpty = false) :
    freq_step st w = (bump st.1 (normalize_word w), st.2 + count_alpha w) := by
  simp [freq_step, h]

theorem word_freq_char_count_go (ws : List Word) (m : List (Word × Nat)) (c : Nat) :
    ws.foldl freq_step (m, c) =
    (((ws.map normalize_word).filter (fun w => !w.isEmpty)).foldl bump m,
      c + (ws.map count_alpha).sum) := by
  induction ws generalizing m c with
  | nil => simp
  | cons w ws ih =>
    rw [List.foldl_cons, List.map_cons, List.filter_cons, List.map_cons, List.sum_cons]
    by_cases h : (normalize_word w).isEmpty
    · rw [freq_step_empty h, ih]
      simp [h, Nat.add_assoc]
    · simp only [Bool.not_eq_true] at h
      rw [freq_step_nonempty h, ih]
      simp [h, Nat.add_assoc]

theorem word_freq_char_count_eq (t : List Char) :
    word_freq_char_count t =
      ((norm_words t).foldl bump [], ((split_whitespace t).map count_alpha).sum) := by
  rw [word_freq_char_count, word_freq_char_count_go, norm_words]
  simp

theorem word_freq_eq (t : List Char) : word_freq t = (norm_words t).foldl bump [] := by
  rw [word_freq, word_freq_char_count_eq]

theorem char_count_eq (t : List Char) :
    (word_freq_char_count t).2 = ((split_whitespace t).map count_alpha).sum := by
  rw [word_freq_char_count_eq]

/-! ### Keys of the frequency-map model -/

theorem bump_keys (m : List (Word × Nat)) (w : Word) :
    (bump m w).map Prod.fst =
      if w ∈ m.map Prod.fst then m.map Prod.fst else m.map Prod.fst ++ [w] := by
  induction m with
  | nil => simp [bump]
  | cons p rest ih =>
    obtain ⟨w', c⟩ := p
    by_cases h : w' = w
    · subst h
      simp [bump]
    · have hne : ¬w = w' := fun hh => h hh.symm
      simp only [bump, h, ite_false, List.map_cons, List.mem_cons, hne, false_or, ih]
      by_cases hm : w ∈ rest.map Prod.fst
      · simp [hm]
      · simp [hm]

theorem mem_keys_bump (m : List (Word × Nat)) (w x : Word) :
    x ∈ (bump m w).map Prod.fst ↔ x ∈ m.map Prod.fst ∨ x = w := by
  rw [bump_keys]
  by_cases h : w ∈ m.map Prod.fst
  · simp only [h, ite_true]
    constructor
    · exact Or.inl
    · rintro (hx | rfl)
      · exact hx
      · exact h
  · simp [h]

theorem nodup_keys_bump (m : List (Word × Nat)) (w : Word)
    (h : (m.map Prod.fst).Nodup) : ((bump m w).map Prod.fst).Nodup := by
  rw [bump_keys]
  by_cases hm : w ∈ m.map Prod.fst
  · simpa [hm] using h
  · simp only [hm, ite_false]
    exact List.Nodup.append h (List.nodup_singleton w) (by simpa using hm)

theorem mem_keys_foldl_bump (ws : List Word) (m : List (Word × Nat)) (x : Word) :
    x ∈ ((ws.foldl bump m).map Prod.fst) ↔ x ∈ m.map Prod.fst ∨ x ∈ ws := by
  induction ws generalizing m with
  | nil => simp
  | cons w ws ih =>
    simp only [List.foldl_cons, ih, mem_keys_bump, List.mem_cons]
    tauto

theorem nodup_keys_foldl_bump (ws : List Word) (m : List (Word × Nat))
    (h : (m.map Prod.fst).Nodup) : ((ws.foldl bump m).map Prod.fst).Nodup := by
  induction ws generalizing m with
  | nil => exact h
  | cons w ws ih => exact ih _ (nodup_keys_bump _ _ h)

theorem mem_keys_word_freq (t : List Char) (x : Word) :
    x ∈ (word_freq t).map Prod.fst ↔ x ∈ norm_words t := by
  rw [word_freq_eq, mem_keys_foldl_bump]
  simp

theorem nodup_keys_word_freq (t : List Char) : ((word_freq t).map Prod.fst).Nodup := by
  rw [word_freq_eq]
  exact nodup_keys_foldl_bump _ _ (by simp)

/-! ### Lookup in the frequency-map model -/

theorem get_count_mem {m : List (Word × Nat)} (hnd : (m.map Prod.fst).Nodup)
    {w : Word} {c : Nat} (h : (w, c) ∈ m) : get_count m w = c := by
  induction m with
  | nil => cases h
  | cons p rest ih =>
    obtain ⟨w', c'⟩ := p
    simp only [List.map_cons, List.nodup_cons] at hnd
    rcases List.mem_cons.mp h with h1 | h2
    · obtain ⟨rfl, rfl⟩ := Prod.mk.injEq .. ▸ h1
      simp_all [get_count]
    · have hne : w' ≠ w := by
        rintro rfl
        exact hnd.1 (List.mem_map_of_mem Prod.fst h2)
      simp only [get_count, hne, ite_false]
      exact ih hnd.2 h2

theorem mem_get_count {m : List (Word × Nat)} {w : Word}
    (h : w ∈ m.map Prod.fst) : (w, get_count m w) ∈ m := by
  induction m with
  | nil => simp at h
  | cons p rest ih =>
    obtain ⟨w', c'⟩ := p
    by_cases hw : w' = w
    · subst hw
      simp [get_count]
    · simp only [List.map_cons, List.mem_cons] at h
      rcases h with h1 | h2
      · exact absurd h1.symm hw
      · simp only [get_count, hw, ite_false]
        exact List.mem_cons_of_mem _ (ih h2)

/-! ### Order theory for the heap keys -/

theorem word_lt_trans : ∀ {a b c : Word},
    word_lt a b = true → word_lt b c = true → word_lt a c = true := by
  intro a
  induction a with
  | nil =>
    intro b c hab hbc
    cases b with
    | nil => simp [word_lt] at hab
    | cons y ys =>
      cases c with
      | nil => simp [word_lt] at hbc
      | cons z zs => simp [word_lt]
  | cons x xs ih =>
    intro b c hab hbc
    cases b with
    | nil => simp [word_lt] at hab
    | cons y ys =>
      cases c with
      | nil => simp [word_lt] at hbc
      | cons z zs =>
        simp only [word_lt] at hab hbc ⊢
        split_ifs at hab hbc ⊢ <;>
          first
          | rfl
          | omega
          | exact ih hab hbc

theorem word_lt_asymm : ∀ {a b : Word},
    word_lt a b = true → word_lt b a = true → False := by
  intro a
  induction a with
  | nil =>
    intro b hab hba
    cases b with
    | nil => simp [word_lt] at hab
    | cons y ys => simp [word_lt] at hba
  | cons x xs ih =>
    intro b hab hba
    cases b with
    | nil => simp [word_lt] at hab
    | cons y ys =>
      simp only [word_lt] at hab hba
      split_ifs at hab hba <;>
        first
        | omega
        | exact ih hab hba

theorem word_lt_total : ∀ {a b : Word}, a ≠ b →
    word_lt a b = true ∨ word_lt b a = true := by
  intro a
  induction a with
  | nil =>
    intro b hne
    cases b with
    | nil => exact absurd rfl hne
    | cons y ys => simp [word_lt]
  | cons x xs ih =>
    intro b hne
    cases b with
    | nil => simp [word_lt]
    | cons y ys =>
      by_cases h1 : x.toNat < y.toNat
      · simp [word_lt, h1]
      · by_cases h2 : y.toNat < x.toNat
        · simp [word_lt, h1, h2]
        · have hxy : x = y := char_toNat_inj (by omega)
          subst hxy
          have hne' : xs ≠ ys := by
            intro h
            exact hne (by rw [h])
          rcases ih hne' with h | h
          · exact Or.inl (by simp [word_lt, h])
          · exact Or.inr (by simp [word_lt, h])

theorem pair_lt_trans : ∀ (p q r : Nat × Word),
    pair_lt p q = true → pair_lt q r = true → pair_lt p r = true := by
  intro p q r hpq hqr
  simp only [pair_lt] at hpq hqr ⊢
  split_ifs at hpq hqr ⊢ <;>
    first
    | rfl
    | omega
    | exact word_lt_trans hpq hqr

theorem pair_lt_asymm : ∀ (p q : Nat × Word),
    pair_lt p q = true → pair_lt q p = true → False := by
  intro p q hpq hqp
  simp only [pair_lt] at hpq hqp
  split_ifs at hpq hqp <;>
    first
    | omega
    | exact word_lt_asymm hpq hqp

theorem pair_lt_total : ∀ (p q : Nat × Word), p ≠ q →
    pair_lt p q = true ∨ pair_lt q p = true := by
  intro p q hne
  by_cases h1 : p.1 < q.1
  · simp [pair_lt, h1]
  · by_cases h2 : q.1 < p.1
    · simp [pair_lt, h1, h2]
    · have hfst : p.1 = q.1 := by omega
      have hsnd : p.2 ≠ q.2 := by
        intro h
        exact hne (Prod.ext hfst h)
      rcases word_lt_total hsnd with h | h
      · exact Or.inl (by simp [pair_lt, h1, h2, h])
      · exact Or.inr (by simp [pair_lt, h1, h2, hfst, h])

theorem pair_lt_le {p q : Nat × Word} (h : pair_lt p q = true) : p.1 ≤ q.1 := by
  simp only [pair_lt] at h
  split_ifs at h <;> omega

/-! ### The bounded heap: sortedness, size, contents -/

theorem mem_insert_sorted {lt : α → α → Bool} {x a : α} {h : List α} :
    a ∈ insert_sorted lt x h ↔ a = x ∨ a ∈ h := by
  induction h with
  | nil => simp [insert_sorted]
  | cons y ys ih =>
    by_cases hc : lt x y
    · simp [insert_sorted, hc]
    · simp [insert_sorted, hc, ih]
      tauto

theorem length_insert_sorted (lt : α → α → Bool) (x : α) (h : List α) :
    (insert_sorted lt x h).length = h.length + 1 := by
  induction h with
  | nil => rfl
  | cons y ys ih =>
    by_cases hc : lt x y
    · simp [insert_sorted, hc]
    · simp [insert_sorted, hc, ih]

theorem pairwise_insert_sorted {lt : α → α → Bool}
    (htrans : ∀ a b c, lt a b = true → lt b c = true → lt a c = true)
    {x : α} {h : List α} (htot : ∀ y ∈ h, lt x y = true ∨ lt y x = true)
    (hp : h.Pairwise (fun a b => lt a b = true)) :
    (insert_sorted lt x h).Pairwise (fun a b => lt a b = true) := by
  induction h with
  | nil => simp [insert_sorted]
  | cons y ys ih =>
    rw [List.pairwise_cons] at hp
    by_cases hc : lt x y = true
    · simp only [insert_sorted, hc, if_true]
      refine List.pairwise_cons.mpr ⟨?_, List.pairwise_cons.mpr ⟨hp.1, hp.2⟩⟩
      intro z hz
      rcases List.mem_cons.mp hz with rfl | hz'
      · exact hc
      · exact htrans _ _ _ hc (hp.1 z hz')
    · have hyx : lt y x = true := by
        rcases htot y (List.mem_cons_self y ys) with h1 | h1
        · exact absurd h1 hc
        · exact h1
      simp only [insert_sorted, hc, if_false]
      refine List.pairwise_cons.mpr
        ⟨?_, ih (fun z hz => htot z (List.mem_cons_of_mem _ hz)) hp.2⟩
      intro z hz
      rcases mem_insert_sorted.mp hz with rfl | hz'
      · exact hyx
      · exact hp.1 z hz'

theorem nodup_of_pairwise_lt {lt : α → α → Bool}
    (hasymm : ∀ a b, lt a b = true → lt b a = true → False)
    {h : List α} (hp : h.Pairwise (fun a b => lt a b = true)) : h.Nodup :=
  hp.imp (fun {a b} hab => by
    rintro rfl
    exact hasymm a a hab hab)

theorem mem_of_subset_of_length_le [DecidableEq α] {h l : List α}
    (hnd_h : h.Nodup) (hnd_l : l.Nodup) (hsub : ∀ x ∈ h, x ∈ l)
    (hlen : l.length ≤ h.length) : ∀ y ∈ l, y ∈ h := by
  have hsubf : h.toFinset ⊆ l.toFinset := by
    intro x hx
    simp only [List.mem_toFinset] at hx ⊢
    exact hsub x hx
  have hcard : l.toFinset.card ≤ h.toFinset.card := by
    rw [List.toFinset_card_of_nodup hnd_h, List.toFinset_card_of_nodup hnd_l]
    exact hlen
  have heq := Finset.eq_of_subset_of_card_le hsubf hcard
  intro y hy
  have hy2 : y ∈ h.toFinset := by
    rw [heq]
    simpa using hy
  simpa using hy2

/-- The main invariant of the source's bounded-heap pattern: after feeding
a duplicate-free list `l` through a capacity-`K` heap, the retained list is
sorted ascending, has length `min K l.length`, is drawn from `l`, and every
element of `l` that was dropped is strictly below every retained element. -/
theorem bounded_top_k_spec [DecidableEq α] (K : Nat) (lt : α → α → Bool)
    (htrans : ∀ a b c, lt a b = true → lt b c = true → lt a c = true)
    (hasymm : ∀ a b, lt a b = true → lt b a = true → False)
    (htot : ∀ a b, a ≠ b → lt a b = true ∨ lt b a = true)
    (l : List α) : l.Nodup →
    (bounded_top_k K lt l).Pairwise (fun a b => lt a b = true) ∧
    (bounded_top_k K lt l).length = min K l.length ∧
    (∀ x ∈ bounded_top_k K lt l, x ∈ l) ∧
    (∀ y ∈ l, y ∉ bounded_top_k K lt l → ∀ x ∈ bounded_top_k K lt l, lt y x = true) := by
  induction l using List.reverseRecOn with
  | nil =>
    intro _
    simp [bounded_top_k]
  | append_singleton l a ih =>
    intro hnd
    rw [List.nodup_append] at hnd
    obtain ⟨hndl, -, hdisj⟩ := hnd
    have hal : a ∉ l := by
      intro hmem
      exact hdisj hmem (List.mem_singleton_self a)
    obtain ⟨hp, hlen, hsub, hexcl⟩ := ih hndl
    have hstep : bounded_top_k K lt (l ++ [a]) =
        heap_push K lt (bounded_top_k K lt l) a := by
      simp [bounded_top_k, List.foldl_append]
    set h := bounded_top_k K lt l with hh
    have hnd_h : h.Nodup := nodup_of_pairwise_lt hasymm hp
    have hah : a ∉ h := fun hmem => hal (hsub a hmem)
    have htot' : ∀ y ∈ h, lt a y = true ∨ lt y a = true := by
      intro y hy
      refine htot a y ?_
      intro heq
      exact hah (heq ▸ hy)
    have hp' := pairwise_insert_sorted htrans htot' hp
    have hnd' : (insert_sorted lt a h).Nodup := nodup_of_pairwise_lt hasymm hp'
    have hlen' := length_insert_sorted lt a h
    by_cases hK : K < (insert_sorted lt a h).length
    · -- the heap overflows: drop the minimum (the head)
      have hfull : h.length = K := by
        omega
      have hlfull : K ≤ l.length := by
        omega
      obtain ⟨m, tl, hcons⟩ : ∃ m tl, insert_sorted lt a h = m :: tl := by
        cases hc : insert_sorted lt a h with
        | nil =>
          rw [hc] at hlen'
          simp at hlen'
        | cons m tl => exact ⟨m, tl, rfl⟩
      have hins_mem : ∀ x, x ∈ m :: tl ↔ x = a ∨ x ∈ h := by
        rw [← hcons]
        intro x
        exact mem_insert_sorted
      have hres : bounded_top_k K lt (l ++ [a]) = tl := by
        rw [hstep, heap_push]
        rw [hcons] at hK ⊢
        simp only [List.length_cons] at hK
        simp [hK]
      rw [hres]
      rw [hcons] at hp' hnd' hlen'
      rw [List.pairwise_cons] at hp'
      rw [List.nodup_cons] at hnd'
      refine ⟨hp'.2, ?_, ?_, ?_⟩
      · simp only [List.length_cons] at hlen'
        simp only [List.length_append, List.length_singleton]
        omega
      · intro x hx
        rcases (hins_mem x).mp (List.mem_cons_of_mem _ hx) with hxa | hx'
        · rw [hxa]
          simp
        · exact List.mem_append_left _ (hsub x hx')
      · intro y hy hytl x hx
        by_cases hym : y = m
        · rw [hym]
          exact hp'.1 x hx
        · have hyins : ¬(y = a ∨ y ∈ h) := by
            intro hcase
            have hymem : y ∈ m :: tl := (hins_mem y).mpr hcase
            rcases List.mem_cons.mp hymem with h1 | h1
            · exact hym h1
            · exact hytl h1
          push_neg at hyins
          obtain ⟨hya, hyh⟩ := hyins
          have hyl : y ∈ l := by
            rcases List.mem_append.mp hy with h1 | h1
            · exact h1
            · exact absurd (List.mem_singleton.mp h1) hya
          have hylt : ∀ z ∈ h, lt y z = true := hexcl y hyl hyh
          rcases (hins_mem x).mp (List.mem_cons_of_mem _ hx) with hxa | hx'
          · -- x = a : go through the dropped minimum m
            rcases (hins_mem m).mp (List.mem_cons_self m tl) with hma | hmh
            · exfalso
              rw [hxa, ← hma] at hx
              exact hnd'.1 hx
            · exact htrans _ _ _ (hylt m hmh) (hp'.1 x hx)
          · exact hylt x hx'
    · -- no overflow: the whole inserted list is retained
      have hres : bounded_top_k K lt (l ++ [a]) = insert_sorted lt a h := by
        rw [hstep, heap_push]
        simp [hK]
      rw [hres]
      refine ⟨hp', ?_, ?_, ?_⟩
      · simp only [hlen', List.length_append, List.length_singleton]
        omega
      · intro x hx
        rcases mem_insert_sorted.mp hx with hxa | hx'
        · rw [hxa]
          simp
        · exact List.mem_append_left _ (hsub x hx')
      · -- nothing has ever been dropped: h already contains all of l
        intro y hy hyins x hx
        exfalso
        have hya : y ≠ a := fun heq => hyins (mem_insert_sorted.mpr (Or.inl heq))
        have hyl : y ∈ l := by
          rcases List.mem_append.mp hy with h1 | h1
          · exact h1
          · exact absurd (List.mem_singleton.mp h1) hya
        have hyh : y ∉ h := fun hmem =>
          hyins (mem_insert_sorted.mpr (Or.inr hmem))
        have hhl : l.length ≤ h.length := by
          omega
        exact hyh (mem_of_subset_of_length_le hnd_h hndl hsub hhl y hyl)

/-- The retained contents of the bounded heap do not depend on the order in
which a duplicate-free list is fed in: any two permutations of the entries
produce the *same* retained list. -/
theorem bounded_top_k_perm [DecidableEq α] (K : Nat) (lt : α → α → Bool)
    (htrans : ∀ a b c, lt a b = true → lt b c = true → lt a c = true)
    (hasymm : ∀ a b, lt a b = true → lt b a = true → False)
    (htot : ∀ a b, a ≠ b → lt a b = true ∨ lt b a = true)
    {l₁ l₂ : List α} (hperm : l₁.Perm l₂) (hnd : l₁.Nodup) :
    bounded_top_k K lt l₁ = bounded_top_k K lt l₂ := by
  obtain ⟨hs₁, hl₁, hsub₁, hex₁⟩ := bounded_top_k_spec K lt htrans hasymm htot l₁ hnd
  have hnd₂ : l₂.Nodup := hperm.nodup hnd
  obtain ⟨hs₂, hl₂, hsub₂, hex₂⟩ := bounded_top_k_spec K lt htrans hasymm htot l₂ hnd₂
  have hlen : (bounded_top_k K lt l₁).length = (bounded_top_k K lt l₂).length := by
    rw [hl₁, hl₂, hperm.length_eq]
  have hnds₁ := nodup_of_pairwise_lt hasymm hs₁
  have hnds₂ := nodup_of_pairwise_lt hasymm hs₂
  have hsub12 : ∀ x ∈ bounded_top_k K lt l₁, x ∈ bounded_top_k K lt l₂ := by
    by_contra hcon
    push_neg at hcon
    obtain ⟨x, hxS₁, hxnS₂⟩ := hcon
    have hx2 : x ∈ l₂ := hperm.mem_iff.mp (hsub₁ x hxS₁)
    have hxlt : ∀ z ∈ bounded_top_k K lt l₂, lt x z = true := hex₂ x hx2 hxnS₂
    have hsub21 : ∀ y ∈ bounded_top_k K lt l₂, y ∈ bounded_top_k K lt l₁ := by
      intro y hyS₂
      by_contra hynS₁
      have hy1 : y ∈ l₁ := hperm.mem_iff.mpr (hsub₂ y hyS₂)
      exact hasymm x y (hxlt y hyS₂) (hex₁ y hy1 hynS₁ x hxS₁)
    exact hxnS₂
      (mem_of_subset_of_length_le hnds₂ hnds₁ hsub21 (le_of_eq hlen) x hxS₁)
  have hmemiff : ∀ x, x ∈ bounded_top_k K lt l₁ ↔ x ∈ bounded_top_k K lt l₂ := by
    intro x
    constructor
    · exact hsub12 x
    · intro hx
      exact mem_of_subset_of_length_le hnds₁ hnds₂ hsub12 (le_of_eq hlen.symm) x hx
  have hpermS : (bounded_top_k K lt l₁).Perm (bounded_top_k K lt l₂) :=
    (List.perm_ext_iff_of_nodup hnds₁ hnds₂).mpr hmemiff
  haveI : IsAntisymm α (fun a b => lt a b = true) :=
    ⟨fun a b h1 h2 => (hasymm a b h1 h2).elim⟩
  exact List.eq_of_perm_of_sorted hpermS hs₁ hs₂

/-! ### Facts about the two selection passes -/

theorem mem_map_swap {β γ : Type} {S : List (β × γ)} {p : γ × β} :
    p ∈ S.map (fun q => (q.2, q.1)) ↔ (p.2, p.1) ∈ S := by
  constructor
  · intro h
    obtain ⟨q, hq, hqe⟩ := List.mem_map.mp h
    cases hqe
    simpa using hq
  · intro h
    exact List.mem_map.mpr ⟨(p.2, p.1), h, rfl⟩

theorem nodup_swap_entries {e : List (Word × Nat)}
    (hnd : (e.map Prod.fst).Nodup) :
    (e.map (fun p => (p.2, p.1))).Nodup := by
  refine List.Nodup.map ?_ (hnd.of_map Prod.fst)
  intro p q h
  cases p
  cases q
  simpa [Prod.ext_iff, and_comm] using h

theorem nodup_len_entries {e : List (Word × Nat)}
    (hnd : (e.map Prod.fst).Nodup) :
    (e.map (fun p => (utf8_len p.1, p.1))).Nodup := by
  have h : e.map (fun p => (utf8_len p.1, p.1)) =
      (e.map Prod.fst).map (fun w => (utf8_len w, w)) := by
    rw [List.map_map]
    rfl
  rw [h]
  refine List.Nodup.map ?_ hnd
  intro w v hwv
  have h2 : utf8_len w = utf8_len v ∧ w = v := by
    simpa [Prod.ext_iff] using hwv
  exact h2.2

theorem top_words_sel_facts (entries : List (Word × Nat))
    (hnd : (entries.map Prod.fst).Nodup) :
    (top_words_sel entries).length = min 10 entries.length ∧
    List.Pairwise (fun a b : Word × Nat => b.2 ≤ a.2) (top_words_sel entries) ∧
    (∀ p : Word × Nat, p ∈ top_words_sel entries ↔
      (p.2, p.1) ∈ bounded_top_k 10 pair_lt (entries.map (fun p => (p.2, p.1)))) ∧
    (∀ p ∈ top_words_sel entries, (p.1, p.2) ∈ entries) ∧
    (∀ q ∈ entries, (∀ p ∈ top_words_sel entries, p.1 ≠ q.1) →
      ∀ p ∈ top_words_sel entries, pair_lt (q.2, q.1) (p.2, p.1) = true) := by
  haveI : IsTotal (Word × Nat) (fun a b => b.2 ≤ a.2) := ⟨fun a b => le_total b.2 a.2⟩
  haveI : IsTrans (Word × Nat) (fun a b => b.2 ≤ a.2) :=
    ⟨fun _ _ _ hab hbc => le_trans hbc hab⟩
  obtain ⟨hs, hlen, hsub, hexcl⟩ :=
    bounded_top_k_spec 10 pair_lt pair_lt_trans pair_lt_asymm pair_lt_total
      (entries.map (fun p => (p.2, p.1))) (nodup_swap_entries hnd)
  have hsort := List.perm_insertionSort
    (fun a b : Word × Nat => b.2 ≤ a.2)
    ((bounded_top_k 10 pair_lt (entries.map (fun p => (p.2, p.1)))).map
      (fun p => (p.2, p.1)))
  have hmem : ∀ p : Word × Nat, p ∈ top_words_sel entries ↔
      (p.2, p.1) ∈ bounded_top_k 10 pair_lt (entries.map (fun p => (p.2, p.1))) := by
    intro p
    rw [top_words_sel, hsort.mem_iff, mem_map_swap]
  refine ⟨?_, ?_, hmem, ?_, ?_⟩
  · rw [top_words_sel, hsort.length_eq, List.length_map, hlen, List.length_map]
  · exact List.sorted_insertionSort _ _
  · intro p hp
    have hmem2 := hsub _ ((hmem p).mp hp)
    obtain ⟨q, hq, hqe⟩ := List.mem_map.mp hmem2
    obtain ⟨h1, h2⟩ := Prod.mk.injEq .. ▸ hqe
    have : q = (p.1, p.2) := Prod.ext h2 h1
    rwa [this] at hq
  · intro q hq hqnot p hp
    have hqpair : (q.2, q.1) ∈ entries.map (fun p => (p.2, p.1)) :=
      List.mem_map.mpr ⟨q, hq, rfl⟩
    have hqout : (q.2, q.1) ∉
        bounded_top_k 10 pair_lt (entries.map (fun p => (p.2, p.1))) := by
      intro hin
      have : (q.1, q.2) ∈ top_words_sel entries := by
        rw [hmem]
        exact hin
      exact hqnot _ this rfl
    exact hexcl _ hqpair hqout _ ((hmem p).mp hp)

theorem longest_words_sel_facts (entries : List (Word × Nat))
    (hnd : (entries.map Prod.fst).Nodup) :
    (longest_words_sel entries).length = min 5 entries.length ∧
    List.Pairwise (fun a b : Word => utf8_len b ≤ utf8_len a) (longest_words_sel entries) ∧
    (∀ w : Word, w ∈ longest_words_sel entries ↔
      (utf8_len w, w) ∈ bounded_top_k 5 pair_lt
        (entries.map (fun p => (utf8_len p.1, p.1)))) ∧
    (∀ w ∈ longest_words_sel entries, w ∈ entries.map Prod.fst) ∧
    (∀ v ∈ entries.map Prod.fst, v ∉ longest_words_sel entries →
      ∀ w ∈ longest_words_sel entries, utf8_len v ≤ utf8_len w) ∧
    (longest_words_sel entries).Nodup := by
  haveI : IsTotal Word (fun a b => utf8_len b ≤ utf8_len a) :=
    ⟨fun a b => le_total (utf8_len b) (utf8_len a)⟩
  haveI : IsTrans Word (fun a b => utf8_len b ≤ utf8_len a) :=
    ⟨fun _ _ _ hab hbc => le_trans hbc hab⟩
  obtain ⟨hs, hlen, hsub, hexcl⟩ :=
    bounded_top_k_spec 5 pair_lt pair_lt_trans pair_lt_asymm pair_lt_total
      (entries.map (fun p => (utf8_len p.1, p.1))) (nodup_len_entries hnd)
  have hshape : ∀ x ∈ bounded_top_k 5 pair_lt
      (entries.map (fun p => (utf8_len p.1, p.1))), x = (utf8_len x.2, x.2) := by
    intro x hx
    obtain ⟨q, -, hqe⟩ := List.mem_map.mp (hsub x hx)
    rw [← hqe]
  have hsort := List.perm_insertionSort
    (fun a b : Word => utf8_len b ≤ utf8_len a)
    ((bounded_top_k 5 pair_lt (entries.map (fun p => (utf8_len p.1, p.1)))).map
      (fun p => p.2))
  have hmem : ∀ w : Word, w ∈ longest_words_sel entries ↔
      (utf8_len w, w) ∈ bounded_top_k 5 pair_lt
        (entries.map (fun p => (utf8_len p.1, p.1))) := by
    intro w
    rw [longest_words_sel, hsort.mem_iff]
    constructor
    · intro h
      obtain ⟨x, hx, hxe⟩ := List.mem_map.mp h
      have hx2 := hshape x hx
      rw [hxe] at hx2
      rwa [hx2] at hx
    · intro h
      exact List.mem_map.mpr ⟨(utf8_len w, w), h, rfl⟩
  have hnodup : (longest_words_sel entries).Nodup := by
    rw [longest_words_sel]
    refine hsort.symm.nodup ?_
    refine List.Nodup.map_on ?_ (nodup_of_pairwise_lt pair_lt_asymm hs)
    intro x hx y hy hxy
    rw [hshape x hx, hshape y hy, hxy]
  refine ⟨?_, ?_, hmem, ?_, ?_, hnodup⟩
  · rw [longest_words_sel, hsort.length_eq, List.length_map, hlen, List.length_map]
  · exact List.sorted_insertionSort _ _
  · intro w hw
    have hmem2 := hsub _ ((hmem w).mp hw)
    obtain ⟨q, hq, hqe⟩ := List.mem_map.mp hmem2
    have : q.1 = w := congrArg Prod.snd hqe
    rw [← this]
    exact List.mem_map_of_mem Prod.fst hq
  · intro v hv hvout w hw
    obtain ⟨q, hq, hqe⟩ := List.mem_map.mp hv
    have hvpair : (utf8_len v, v) ∈ entries.map (fun p => (utf8_len p.1, p.1)) :=
      List.mem_map.mpr ⟨q, hq, by rw [hqe]⟩
    have hvnot : (utf8_len v, v) ∉ bounded_top_k 5 pair_lt
        (entries.map (fun p => (utf8_len p.1, p.1))) := by
      intro hin
      exact hvout ((hmem v).mpr hin)
    have := hexcl _ hvpair hvnot _ ((hmem w).mp hw)
    exact pair_lt_le this

/-- Feeding the top-words selection any permutation of the entry list
(i.e. any `HashMap` iteration order) yields the same output sequence. -/
theorem top_words_sel_perm {e₁ e₂ : List (Word × Nat)} (hperm : e₁.Perm e₂)
    (hnd : (e₁.map Prod.fst).Nodup) :
    top_words_sel e₁ = top_words_sel e₂ := by
  rw [top_words_sel, top_words_sel,
    bounded_top_k_perm 10 pair_lt pair_lt_trans pair_lt_asymm pair_lt_total
      (hperm.map _) (nodup_swap_entries hnd)]

/-- Feeding the longest-words selection any permutation of the entry list
yields the same output sequence. -/
theorem longest_words_sel_perm {e₁ e₂ : List (Word × Nat)} (hperm : e₁.Perm e₂)
    (hnd : (e₁.map Prod.fst).Nodup) :
    longest_words_sel e₁ = longest_words_sel e₂ := by
  rw [longest_words_sel, longest_words_sel,
    bounded_top_k_perm 5 pair_lt pair_lt_trans pair_lt_asymm pair_lt_total
      (hperm.map _) (nodup_len_entries hnd)]

/-! ### Degenerate inputs -/

theorem split_whitespace_eq_nil {t : List Char}
    (h : ∀ c ∈ t, is_whitespace c = true) : split_whitespace t = [] := by
  rw [split_whitespace]
  induction t with
  | nil => rfl
  | cons c cs ih =>
    have hc : is_whitespace c = true := h c (List.mem_cons_self c cs)
    simp only [split_ws_go, hc, if_true, List.isEmpty_nil, ite_true]
    exact ih (fun d hd => h d (List.mem_cons_of_mem _ hd))

/-! ### Bridging helpers used by the claim theorems -/

theorem mem_norm_words_normalize {t : List Char} {w : Word} (h : w ∈ norm_words t) :
    ∃ tok ∈ split_whitespace t, w = normalize_word tok := by
  rw [norm_words] at h
  obtain ⟨hmem, -⟩ := List.mem_filter.mp h
  obtain ⟨tok, htok, rfl⟩ := List.mem_map.mp hmem
  exact ⟨tok, htok, rfl⟩

theorem key_chars_props {t : List Char} {w : Word}
    (h : w ∈ (word_freq t).map Prod.fst) :
    ∀ c ∈ w, is_alphabetic c = true ∧ is_ascii_uppercase c = false := by
  intro c hc
  obtain ⟨tok, -, rfl⟩ := mem_norm_words_normalize ((mem_keys_word_freq t w).mp h)
  exact mem_normalize_word hc

/-! ### The claims -/

/-- C1: for every input text, the `top_words` sequence returned by
`analyze_text_fast` has length `min 10 word_count`, every count in it is
at least the frequency-map count of every normalized word that does not
occur in it, and the sequence is non-increasing by count. -/
theorem claim_C1 (t : List Char) :
    (analyze_text_fast t).top_words.length = min 10 (analyze_text_fast t).word_count ∧
    (∀ w ∈ norm_words t, (∀ p ∈ (analyze_text_fast t).top_words, p.1 ≠ w) →
      ∀ p ∈ (analyze_text_fast t).top_words, get_count (word_freq t) w ≤ p.2) ∧
    List.Chain' (fun a b : Word × Nat => b.2 ≤ a.2) (analyze_text_fast t).top_words := by
  have hnd := nodup_keys_word_freq t
  obtain ⟨hlen, hsorted, hmem, hsub, hexcl⟩ := top_words_sel_facts (word_freq t) hnd
  have htop : (analyze_text_fast t).top_words = top_words_sel (word_freq t) := rfl
  have hwc : (analyze_text_fast t).word_count = (word_freq t).length := rfl
  refine ⟨?_, ?_, ?_⟩
  · rw [htop, hwc, hlen]
  · intro w hw hnot p hp
    have hkey : w ∈ (word_freq t).map Prod.fst := (mem_keys_word_freq t w).mpr hw
    have hentry : (w, get_count (word_freq t) w) ∈ word_freq t := mem_get_count hkey
    have hnot2 : ∀ p ∈ top_words_sel (word_freq t),
        p.1 ≠ (w, get_count (word_freq t) w).1 := by
      intro p hp2
      exact hnot p (by rw [htop]; exact hp2)
    have hlt := hexcl _ hentry hnot2 p (by rw [← htop]; exact hp)
    exact pair_lt_le hlt
  · rw [htop]
    exact hsorted.chain'

/-- C1 at a concrete input. -/
theorem claim_C1_witness :
    (analyze_text_fast ("b a a".toList)).top_words.length =
      min 10 (analyze_text_fast ("b a a".toList)).word_count :=
  (claim_C1 ("b a a".toList)).1

/-- C2 counterexample: the claim says the longest-words ranking key is the
character count of the normalized word, so the returned sequence would be
non-increasing by character count; on the input `"abc éé"` the code
returns `["éé", "abc"]` (byte lengths 4, 3 but character counts 2, 3),
which is increasing by character count.  The actual key is `String::len`,
the UTF-8 byte length. -/
theorem claim_C2_counterexample :
    ¬ List.Chain' (fun a b : Word => b.length ≤ a.length)
      (analyze_text_fast ("abc éé".toList)).longest_words := by
  have h : (analyze_text_fast ("abc éé".toList)).longest_words =
      [['é', 'é'], ['a', 'b', 'c']] := by
    decide
  rw [h]
  simp

/-- C2 as amended: for every input text, `longest_words` has length
`min 5 word_count`, every UTF-8 byte length (`utf8_len`, Rust
`String::len`) in it is at least the byte length of every distinct
normalized word not in it, the sequence is non-increasing by byte length,
and the ranking key is the byte length — not the character count — of the
normalized word. -/
theorem claim_C2_amended (t : List Char) :
    (analyze_text_fast t).longest_words.length =
      min 5 (analyze_text_fast t).word_count ∧
    (∀ w ∈ norm_words t, w ∉ (analyze_text_fast t).longest_words →
      ∀ v ∈ (analyze_text_fast t).longest_words, utf8_len w ≤ utf8_len v) ∧
    List.Chain' (fun a b : Word => utf8_len b ≤ utf8_len a)
      (analyze_text_fast t).longest_words := by
  have hnd := nodup_keys_word_freq t
  obtain ⟨hlen, hsorted, hmem, hsub, hexcl, hnodup⟩ :=
    longest_words_sel_facts (word_freq t) hnd
  have hlong : (analyze_text_fast t).longest_words = longest_words_sel (word_freq t) := rfl
  have hwc : (analyze_text_fast t).word_count = (word_freq t).length := rfl
  refine ⟨?_, ?_, ?_⟩
  · rw [hlong, hwc, hlen]
  · intro w hw hnot v hv
    have hkey : w ∈ (word_freq t).map Prod.fst := (mem_keys_word_freq t w).mpr hw
    refine hexcl w hkey ?_ v (by rw [← hlong]; exact hv)
    rw [← hlong]
    exact hnot
  · rw [hlong]
    exact hsorted.chain'

/-- C2 (amended) at a concrete input. -/
theorem claim_C2_amended_witness :
    (analyze_text_fast ("abc éé".toList)).longest_words.length =
      min 5 (analyze_text_fast ("abc éé".toList)).word_count :=
  (claim_C2_amended ("abc éé".toList)).1

/-- C3: for every input text, `word_count` equals the number of distinct
normalized non-empty words of the text. -/
theorem claim_C3 (t : List Char) :
    (analyze_text_fast t).word_count = (norm_words t).dedup.length := by
  have hwc : (analyze_text_fast t).word_count = (word_freq t).length := rfl
  have h1 : (word_freq t).length = ((word_freq t).map Prod.fst).length :=
    (List.length_map _ _).symm
  have hperm : ((word_freq t).map Prod.fst).Perm (norm_words t).dedup := by
    refine (List.perm_ext_iff_of_nodup (nodup_keys_word_freq t)
      (List.nodup_dedup _)).mpr ?_
    intro w
    rw [List.mem_dedup, mem_keys_word_freq]
  rw [hwc, h1, hperm.length_eq]

/-- C4: for every input text, `char_count` equals the total number of
alphabetic characters summed over the raw whitespace-delimited tokens,
before normalization. -/
theorem claim_C4 (t : List Char) :
    (analyze_text_fast t).char_count = ((split_whitespace t).map count_alpha).sum := by
  have h : (analyze_text_fast t).char_count = (word_freq_char_count t).2 := rfl
  rw [h, char_count_eq]

/-- C5 counterexample: on the input `"É"` the claim predicts the
normalized word `"é"` (the alphabetic character converted to lowercase),
but the code normalizes with `to_ascii_lowercase`, which leaves the
non-ASCII letter `'É'` unchanged, so the sole frequency-map key (and sole
`top_words` word) is `"É"`, which is not lowercase. -/
theorem claim_C5_counterexample :
    (analyze_text_fast ("É".toList)).top_words.map Prod.fst = [['É']] ∧
    normalize_word ("É".toList) ≠
      (("É".toList).filter (fun c => is_alphabetic c)).map spec_to_lowercase := by
  constructor
  · decide
  · decide

/-- C5 as amended: for every whitespace-delimited token, the normalized
word is exactly the token's alphabetic characters each passed through
`to_ascii_lowercase` (ASCII letters are lowercased, non-ASCII alphabetic
characters are kept unchanged), concatenated in original order;
consequently every key of the frequency map, and every word in
`top_words` and `longest_words`, consists only of alphabetic characters
none of which is an ASCII uppercase letter. -/
theorem claim_C5_amended (t : List Char) :
    (∀ tok ∈ split_whitespace t,
      normalize_word tok =
        (tok.filter (fun c => is_alphabetic c)).map to_ascii_lowercase) ∧
    (∀ w ∈ (word_freq t).map Prod.fst, ∀ c ∈ w,
      is_alphabetic c = true ∧ is_ascii_uppercase c = false) ∧
    (∀ p ∈ (analyze_text_fast t).top_words, ∀ c ∈ p.1,
      is_alphabetic c = true ∧ is_ascii_uppercase c = false) ∧
    (∀ w ∈ (analyze_text_fast t).longest_words, ∀ c ∈ w,
      is_alphabetic c = true ∧ is_ascii_uppercase c = false) := by
  have hnd := nodup_keys_word_freq t
  obtain ⟨-, -, -, hsubt, -⟩ := top_words_sel_facts (word_freq t) hnd
  obtain ⟨-, -, -, hsubl, -, -⟩ := longest_words_sel_facts (word_freq t) hnd
  have htop : (analyze_text_fast t).top_words = top_words_sel (word_freq t) := rfl
  have hlong : (analyze_text_fast t).longest_words = longest_words_sel (word_freq t) := rfl
  refine ⟨fun tok _ => rfl, fun w hw => key_chars_props hw, ?_, ?_⟩
  · intro p hp
    have hentry := hsubt p (by rw [← htop]; exact hp)
    exact key_chars_props (List.mem_map_of_mem Prod.fst hentry)
  · intro w hw
    exact key_chars_props (hsubl w (by rw [← hlong]; exact hw))

/-- C5 (amended) at a concrete input. -/
theorem claim_C5_amended_witness :
    ∀ w ∈ (word_freq ("É a".toList)).map Prod.fst, ∀ c ∈ w,
      is_alphabetic c = true ∧ is_ascii_uppercase c = false :=
  (claim_C5_amended ("É a".toList)).2.1

/-- C6: for every input text, `longest_words` is drawn from the frequency
map's key set, so it contains no duplicate words. -/
theorem claim_C6 (t : List Char) :
    (analyze_text_fast t).longest_words.Nodup ∧
    ∀ w ∈ (analyze_text_fast t).longest_words, w ∈ (word_freq t).map Prod.fst := by
  have hnd := nodup_keys_word_freq t
  obtain ⟨-, -, -, hsubl, -, hnodup⟩ := longest_words_sel_facts (word_freq t) hnd
  have hlong : (analyze_text_fast t).longest_words = longest_words_sel (word_freq t) := rfl
  constructor
  · rw [hlong]
    exact hnodup
  · intro w hw
    exact hsubl w (by rw [← hlong]; exact hw)

/-- C6 at a concrete input. -/
theorem claim_C6_witness :
    ∀ w ∈ (analyze_text_fast ("the quick the".toList)).longest_words,
      w ∈ (word_freq ("the quick the".toList)).map Prod.fst :=
  (claim_C6 ("the quick the".toList)).2

/-- C7: `analyze_text_fast` is total, and on any whitespace-only text
(the empty text included) it returns zero counts and empty sequences. -/
theorem claim_C7 (t : List Char) (h : ∀ c ∈ t, is_whitespace c = true) :
    analyze_text_fast t =
      { word_count := 0, char_count := 0, top_words := [], longest_words := [] } := by
  have hsplit := split_whitespace_eq_nil h
  have hfc : word_freq_char_count t = ([], 0) := by
    rw [word_freq_char_count, hsplit]
    rfl
  simp [analyze_text_fast, analyze_text_fast_iter, word_freq, hfc,
    top_words_sel, longest_words_sel, bounded_top_k]

/-- C7 at a concrete whitespace-only input. -/
theorem claim_C7_witness :
    (∀ c ∈ (" \t\n".toList), is_whitespace c = true) ∧
    analyze_text_fast (" \t\n".toList) =
      { word_count := 0, char_count := 0, top_words := [], longest_words := [] } :=
  ⟨by decide, claim_C7 (" \t\n".toList) (by decide)⟩

/-- C8: two runs on the same text agree on `word_count` and `char_count`,
and — whatever iteration orders the two runs' hash maps present to the
selection loops — on the sets of words in `top_words` and in
`longest_words`. -/
theorem claim_C8 (t : List Char) (o₁ o₂ : List (Word × Nat))
    (h₁ : o₁.Perm (word_freq t)) (h₂ : o₂.Perm (word_freq t)) :
    (analyze_text_fast_iter t o₁).word_count =
      (analyze_text_fast_iter t o₂).word_count ∧
    (analyze_text_fast_iter t o₁).char_count =
      (analyze_text_fast_iter t o₂).char_count ∧
    (∀ w, w ∈ (analyze_text_fast_iter t o₁).top_words.map Prod.fst ↔
      w ∈ (analyze_text_fast_iter t o₂).top_words.map Prod.fst) ∧
    (∀ w, w ∈ (analyze_text_fast_iter t o₁).longest_words ↔
      w ∈ (analyze_text_fast_iter t o₂).longest_words) := by
  have hnd1 : (o₁.map Prod.fst).Nodup :=
    ((h₁.map Prod.fst).nodup_iff).mpr (nodup_keys_word_freq t)
  have h12 : o₁.Perm o₂ := h₁.trans h₂.symm
  have e1 : top_words_sel o₁ = top_words_sel o₂ := top_words_sel_perm h12 hnd1
  have e2 : longest_words_sel o₁ = longest_words_sel o₂ := longest_words_sel_perm h12 hnd1
  have ht1 : (analyze_text_fast_iter t o₁).top_words = top_words_sel o₁ := rfl
  have ht2 : (analyze_text_fast_iter t o₂).top_words = top_words_sel o₂ := rfl
  have hl1 : (analyze_text_fast_iter t o₁).longest_words = longest_words_sel o₁ := rfl
  have hl2 : (analyze_text_fast_iter t o₂).longest_words = longest_words_sel o₂ := rfl
  refine ⟨rfl, rfl, ?_, ?_⟩
  · intro w
    rw [ht1, ht2, e1]
  · intro w
    rw [hl1, hl2, e2]

/-- C8 at a concrete input with two different iteration orders. -/
theorem claim_C8_witness :
    ([((['b'] : Word), 1), ((['a'] : Word), 1)].Perm (word_freq ("b a".toList)) ∧
      [((['a'] : Word), 1), ((['b'] : Word), 1)].Perm (word_freq ("b a".toList))) ∧
    (∀ w, w ∈ (analyze_text_fast_iter ("b a".toList)
        [((['b'] : Word), 1), ((['a'] : Word), 1)]).top_words.map Prod.fst ↔
      w ∈ (analyze_text_fast_iter ("b a".toList)
        [((['a'] : Word), 1), ((['b'] : Word), 1)]).top_words.map Prod.fst) :=
  ⟨⟨by decide, by decide⟩,
    (claim_C8 ("b a".toList) _ _ (by decide) (by decide)).2.2.1⟩

/-- C9: the set of `(word, count)` pairs in `top_words` is exactly the
`min 10 n` greatest map entries under the lexicographic order on
`(count, word)` — ties in count go to the lexicographically greater word —
and the output does not depend on the hash map's iteration order: every
iteration order yields the very same `top_words` sequence. -/
theorem claim_C9 (t : List Char) (it : List (Word × Nat))
    (hit : it.Perm (word_freq t)) :
    (analyze_text_fast_iter t it).top_words = (analyze_text_fast t).top_words ∧
    (analyze_text_fast t).top_words.length = min 10 (word_freq t).length ∧
    (∀ p ∈ (analyze_text_fast t).top_words, (p.1, p.2) ∈ word_freq t) ∧
    (∀ q ∈ word_freq t, (∀ p ∈ (analyze_text_fast t).top_words, p.1 ≠ q.1) →
      ∀ p ∈ (analyze_text_fast t).top_words, pair_lt (q.2, q.1) (p.2, p.1) = true) := by
  have hnd := nodup_keys_word_freq t
  obtain ⟨hlen, hsorted, hmem, hsub, hexcl⟩ := top_words_sel_facts (word_freq t) hnd
  have hndit : (it.map Prod.fst).Nodup := ((hit.map Prod.fst).nodup_iff).mpr hnd
  have htop : (analyze_text_fast t).top_words = top_words_sel (word_freq t) := rfl
  have htopit : (analyze_text_fast_iter t it).top_words = top_words_sel it := rfl
  refine ⟨?_, ?_, ?_, ?_⟩
  · rw [htopit, htop, top_words_sel_perm hit hndit]
  · rw [htop, hlen]
  · intro p hp
    exact hsub p (by rw [← htop]; exact hp)
  · intro q hq hnot p hp
    refine hexcl q hq ?_ p (by rw [← htop]; exact hp)
    rw [← htop]
    exact hnot

/-- C9 at a concrete input with a reordered entry list. -/
theorem claim_C9_witness :
    ([((['a'] : Word), 1), ((['b'] : Word), 1)].Perm (word_freq ("b a".toList))) ∧
    (analyze_text_fast_iter ("b a".toList)
        [((['a'] : Word), 1), ((['b'] : Word), 1)]).top_words =
      (analyze_text_fast ("b a".toList)).top_words :=
  ⟨by decide, (claim_C9 ("b a".toList) _ (by decide)).1⟩

/-- C10: the slow analyzer's character count (computed line by line over
the whole text) equals the fast analyzer's character count (computed per
whitespace-delimited token): both count exactly the alphabetic characters
of the text. -/
theorem claim_C10 (t : List Char) :
    analyze_text_slow_char_count t = (analyze_text_fast t).char_count := by
  have h : (analyze_text_fast t).char_count = (word_freq_char_count t).2 := rfl
  rw [h, char_count_eq, count_alpha_split_whitespace, analyze_text_slow_char_count,
    count_alpha_str_lines]
